import Mathlib

/-!
Verification of the grouped sparse-network core of `single-utilities`
(`src/utils/mod.rs` and `src/types/mod.rs`).

The Rust code is shallowly embedded:
* `f32` weight values are modelled by `Rat` (the code performs no arithmetic
  on weights — it only defaults them to `1.0`, copies and stores them — so
  every weight value occurring in the claims is represented exactly);
* Rust `HashMap` is modelled by an association list with one entry per key,
  `hmInsert` replacing the value in place on an existing key; the (unspecified)
  iteration order of the Rust map is concretised to insertion order;
* Rust panics (`unwrap`, out-of-bounds indexing/slicing) are modelled by
  `Except`/`Option` failure values.
-/

deriving instance DecidableEq for Except

/-- Model of the `f32` weight values (no arithmetic is ever performed on them). -/
abbrev W : Type := Rat

/-- Association-list model of `HashMap`: `insert` replaces in place on an
existing key, otherwise appends a fresh entry at the end. -/
def hmInsert {α : Type} (k : String) (v : α) : List (String × α) → List (String × α)
  | [] => [(k, v)]
  | (k', v') :: rest => if k' = k then (k, v) :: rest else (k', v') :: hmInsert k v rest

/-- Association-list model of `HashMap::get`. -/
def hmFind? {α : Type} (k : String) : List (String × α) → Option α
  | [] => none
  | (k', v') :: rest => if k' = k then some v' else hmFind? k rest

/-- The mutable state of the grouping loop in `validate_net`:
the result `map`, the source key currently being accumulated (`current_src`
in the Rust code) and the per-source working set (`current_target_weight`). -/
structure LoopSt where
  map : List (String × List (String × W))
  currentSrc : String
  ctw : List (String × W)
deriving DecidableEq, Repr

/-- The two ways `validate_net` can fail to return a map:
the explicit `Err` on a source/target length mismatch, and the Rust panic
raised by `we[i]` when the supplied weight vector is too short. -/
inductive VErr where
  | lengthMismatch
  | weightsIndexOutOfBounds
deriving DecidableEq, Repr

/-- One iteration of the `for (i, src) in source.iter().enumerate()` loop body
of `validate_net` (src/utils/mod.rs lines 21-47). -/
def vnStep (target : List String) (weights : Option (List W)) (st : LoopSt)
    (e : Nat × String) : Except VErr LoopSt :=
  let st1 := if st.currentSrc = "" then { st with currentSrc := e.2 } else st
  let st2 :=
    if st1.currentSrc ≠ e.2 ∧ st1.ctw ≠ [] then
      { map := hmInsert st1.currentSrc st1.ctw st1.map, currentSrc := e.2, ctw := [] }
    else st1
  let tgt := target.getD e.1 ""
  match weights with
  | some we =>
      if h : e.1 < we.length then
        .ok { st2 with ctw := hmInsert tgt (we.get ⟨e.1, h⟩) st2.ctw }
      else .error .weightsIndexOutOfBounds
  | none => .ok { st2 with ctw := hmInsert tgt 1 st2.ctw }

/-- Model of `validate_net` (src/utils/mod.rs).  The fourth parameter is the unused
`verbose` flag of the Rust function. -/
def validate_net (source target : List String) (weights : Option (List W))
    (verbose : Bool) : Except VErr (List (String × List (String × W))) :=
  if source.length ≠ target.length then
    .error .lengthMismatch
  else
    match source.enum.foldlM (vnStep target weights) ⟨[], "", []⟩ with
    | .error e => .error e
    | .ok st =>
        .ok (if st.ctw ≠ [] then hmInsert st.currentSrc st.ctw st.map else st.map)

/-- The `PathwayNetwork` struct (src/types/mod.rs). -/
structure PathwayNetwork where
  names : List String
  starts : List Nat
  offsets : List Nat
  cnct : List Nat
  weights : List W
deriving DecidableEq, Repr

namespace PathwayNetwork

/-- Model of `PathwayNetwork::new`: stores the five sequences with no validation. -/
def new (names : List String) (starts offsets cnct : List Nat) (weights : List W) :
    PathwayNetwork :=
  ⟨names, starts, offsets, cnct, weights⟩

/-- Model of `PathwayNetwork::new_wo_weights`: defaults every weight to `1.0`. -/
def new_wo_weights (names : List String) (starts offsets cnct : List Nat) :
    PathwayNetwork :=
  ⟨names, starts, offsets, cnct, List.replicate cnct.length 1⟩

end PathwayNetwork

/-- The `name_to_id` lookup built in `new_from_vec` from the `features`
vocabulary: later duplicate names shadow earlier ones. -/
def name_to_id (features : List String) : List (String × Nat) :=
  features.enum.foldl (fun m e => hmInsert e.2 e.1 m) []

/-- The inner loop of `new_from_vec` resolving one group's members through
`name_to_id`; `none` models the panic of `name_to_id.get(&g_name).unwrap()`. -/
def resolveGroup (ntid : List (String × Nat)) :
    List (String × W) → Option (List Nat × List W)
  | [] => some ([], [])
  | (g, w) :: rest =>
      match hmFind? g ntid, resolveGroup ntid rest with
      | some idx, some (cs, ws) => some (idx :: cs, w :: ws)
      | _, _ => none

/-- The flattening loop of `new_from_vec` (src/types/mod.rs lines 196-209):
accumulators `names`, `starts`, `offsets`, `cnct`, `weights_vec` and the
running offset `i`. -/
def flattenLoop (ntid : List (String × Nat)) :
    List (String × List (String × W)) → List String → List Nat → List Nat →
    List Nat → List W → Nat → Option PathwayNetwork
  | [], names, starts, offsets, cnct, ws, _ => some ⟨names, starts, offsets, cnct, ws⟩
  | (k, v) :: rest, names, starts, offsets, cnct, ws, i =>
      match resolveGroup ntid v with
      | none => none
      | some (cs, gws) =>
          flattenLoop ntid rest (names ++ [k]) (starts ++ [i]) (offsets ++ [v.length])
            (cnct ++ cs) (ws ++ gws) (i + v.length)

/-- Model of `PathwayNetwork::new_from_vec` (src/types/mod.rs).  `none` models the
panics on `validate_net(..).unwrap()` and on an unresolvable target name. -/
def new_from_vec (sources targets : List String) (weights : Option (List W))
    (features : List String) (tmin : Nat) : Option PathwayNetwork :=
  match validate_net sources targets weights false with
  | .error _ => none
  | .ok res =>
      let filtered := res.filter (fun kv => tmin ≤ kv.2.length)
      flattenLoop (name_to_id features) filtered [] [] [] [] [] 0

namespace PathwayNetwork

/-- Model of `get_pathway_name`: `none` models the panic of `self.names[idx]`. -/
def get_pathway_name (n : PathwayNetwork) (idx : Nat) : Option String :=
  n.names.get? idx

/-- Model of `get_pathway_features`: `none` models the panics of `self.starts[idx]`,
`self.offsets[idx]` and of the slice `&self.cnct[srt..off]`. -/
def get_pathway_features (n : PathwayNetwork) (idx : Nat) : Option (List Nat) :=
  match n.starts.get? idx, n.offsets.get? idx with
  | some srt, some off =>
      if srt + off ≤ n.cnct.length then some ((n.cnct.drop srt).take off) else none
  | _, _ => none

/-- Model of `get_pathway_features_and_weights`: both slices, same panic model. -/
def get_pathway_features_and_weights (n : PathwayNetwork) (idx : Nat) :
    Option (List Nat × List W) :=
  match n.starts.get? idx, n.offsets.get? idx with
  | some srt, some off =>
      if srt + off ≤ n.cnct.length ∧ srt + off ≤ n.weights.length then
        some ((n.cnct.drop srt).take off, (n.weights.drop srt).take off)
      else none
  | _, _ => none

/-- Model of `get_num_pathways`. -/
def get_num_pathways (n : PathwayNetwork) : Nat :=
  n.names.length

end PathwayNetwork

/-!
## Specification-side machinery

A *run decomposition* presents an input to `validate_net` as a list of
contiguous runs, each run being a source key together with its list of
(target, weight) pairs.  The pure step function `vnStepP` mirrors the loop
body of `validate_net` once the weight for the current position has been
resolved, and `runFold` is the reference "flush each run into the map"
computation that the grouping loop is proved to implement.
-/

/-- One run: a source key with its (target, weight) pairs. -/
abbrev Run : Type := String × List (String × W)

/-- The grouped-map type produced by `validate_net`. -/
abbrev GMap : Type := List (String × List (String × W))

/-- Pure version of the `validate_net` loop body, acting on the resolved
entry (source, target, weight). -/
def vnStepP (st : LoopSt) (e : String × String × W) : LoopSt :=
  let st1 := if st.currentSrc = "" then { st with currentSrc := e.1 } else st
  let st2 :=
    if st1.currentSrc ≠ e.1 ∧ st1.ctw ≠ [] then
      { map := hmInsert st1.currentSrc st1.ctw st1.map, currentSrc := e.1, ctw := [] }
    else st1
  { st2 with ctw := hmInsert e.2.1 e.2.2 st2.ctw }

/-- The weight list actually consumed by the loop: the given one, or all-`1.0`
when `weights` is absent. -/
def wlistOf (wopt : Option (List W)) (n : Nat) : List W :=
  match wopt with
  | some we => we
  | none => List.replicate n 1

/-- The resolved (source, target, weight) entries of an input triple. -/
def entriesOf (source target : List String) (wopt : Option (List W)) :
    List (String × String × W) :=
  source.zip (target.zip (wlistOf wopt target.length))

/-- Result of `validate_net` after the length check and the loop, as a pure function of
the resolved entries. -/
def vnPure (es : List (String × String × W)) : GMap :=
  let st := es.foldl vnStepP ⟨[], "", []⟩
  if st.ctw ≠ [] then hmInsert st.currentSrc st.ctw st.map else st.map

/-- Last-write-wins deduplication of a pair list on top of an existing
working set (the repeated `current_target_weight.insert`). -/
def dedupFrom (c : List (String × W)) (ps : List (String × W)) : List (String × W) :=
  ps.foldl (fun a p => hmInsert p.1 p.2 a) c

/-- Last-write-wins deduplication of a pair list. -/
def dedupP (ps : List (String × W)) : List (String × W) :=
  dedupFrom [] ps

/-- The entries contributed by one run. -/
def runEntries (k : String) (ps : List (String × W)) : List (String × String × W) :=
  ps.map (fun p => (k, p.1, p.2))

/-- All entries of a run decomposition. -/
def flattenRuns (rs : List Run) : List (String × String × W) :=
  rs.flatMap (fun r => runEntries r.1 r.2)

/-- The source column of a run decomposition. -/
def runSources (rs : List Run) : List String :=
  rs.flatMap (fun r => r.2.map (fun _ => r.1))

/-- The target column of a run decomposition. -/
def runTargets (rs : List Run) : List String :=
  rs.flatMap (fun r => r.2.map Prod.fst)

/-- The weight column of a run decomposition. -/
def runWeights (rs : List Run) : List W :=
  rs.flatMap (fun r => r.2.map Prod.snd)

/-- Reference semantics of the grouping loop: flush each run's deduplicated
pairs into the map, left to right (later runs of a key overwrite earlier ones). -/
def runFold : List Run → GMap → GMap
  | [], m => m
  | (k, ps) :: rs, m => runFold rs (hmInsert k (dedupP ps) m)

/-- The loop state reached after processing a list of further runs from a
mid-run state with map `m`, current key `k` and working set `c`. -/
def endState : List Run → GMap → String → List (String × W) → LoopSt
  | [], m, k, c => ⟨m, k, c⟩
  | (k1, ps) :: rs, m, k, c => endState rs (hmInsert k c m) k1 (dedupP ps)

/-- The pairs of the last run carrying key `q`, if any. -/
def lastRunPairs (q : String) : List Run → Option (List (String × W))
  | [] => none
  | (k, ps) :: rs =>
      match lastRunPairs q rs with
      | some r => some r
      | none => if k = q then some ps else none

/-- The weight of the last occurrence of target `t` in a pair list. -/
def lastWeight (t : String) : List (String × W) → Option W
  | [] => none
  | p :: ps =>
      match lastWeight t ps with
      | some w => some w
      | none => if p.1 = t then some p.2 else none

/-- Well-formedness of a run decomposition: every key is non-empty, every run
is non-empty, and adjacent runs carry distinct keys (so the decomposition is
the canonical one of its flattened input). -/
def wfRuns : List Run → Bool
  | [] => true
  | [r] => r.1 ≠ "" && r.2 ≠ []
  | r :: r2 :: rest => r.1 ≠ "" && r.2 ≠ [] && r.1 ≠ r2.1 && wfRuns (r2 :: rest)

/-- Every pair of a run decomposition carries weight `1.0` (the shape
produced when `weights` is absent). -/
def allWeightsOne (rs : List Run) : Bool :=
  rs.all (fun r => r.2.all (fun p => p.2 = 1))

/-- The groups retained by `new_from_vec`'s size filter; empty when the
grouping step itself fails. -/
def retainedOf (sources targets : List String) (wopt : Option (List W))
    (tmin : Nat) : GMap :=
  match validate_net sources targets wopt false with
  | .ok m => m.filter (fun kv => tmin ≤ kv.2.length)
  | .error _ => []

/-- The parallel-array invariants of a `PathwayNetwork`: equal control-array
lengths, flattened arrays of total length `sum offsets`, and `starts` equal
to the prefix sums of `offsets`. -/
def WfNet (n : PathwayNetwork) : Prop :=
  n.names.length = n.starts.length ∧ n.starts.length = n.offsets.length ∧
    n.cnct.length = n.offsets.sum ∧ n.weights.length = n.offsets.sum ∧
    ∀ j, j < n.starts.length → n.starts.getD j 0 = (n.offsets.take j).sum


/-!
## Concrete fixtures for the scenario witnesses
-/

/-- Scenario A grouped map: the value of
`validate_net ["a","a","b"] ["x","y","x"] none false`. -/
def mapA : GMap := [("a", [("x", 1), ("y", 1)]), ("b", [("x", 1)])]

/-- Scenario A network: the value of
`new_from_vec ["a","a","b"] ["x","y","x"] none ["x","y"] 1`. -/
def netA : PathwayNetwork := ⟨["a", "b"], [0, 2], [2, 1], [0, 1, 0], [1, 1, 1]⟩

/-- Scenario C network: the value of
`new_from_vec ["a","a","b"] ["x","y","x"] none ["x","y"] 2`. -/
def netC : PathwayNetwork := ⟨["a"], [0], [2], [0, 1], [1, 1]⟩

/-- The run decomposition of the Scenario A input. -/
def runsA : List Run := [("a", [("x", 1), ("y", 1)]), ("b", [("x", 1)])]

/-!
## Association-list lemmas
-/

theorem hmFind?_hmInsert {α : Type} (q k : String) (v : α) (m : List (String × α)) :
    hmFind? q (hmInsert k v m) = if k = q then some v else hmFind? q m := by
  induction m with
  | nil => simp [hmInsert, hmFind?]
  | cons p rest ih =>
      obtain ⟨k', v'⟩ := p
      by_cases h : k' = k
      · subst h
        by_cases hq : k' = q <;> simp [hmInsert, hmFind?, hq]
      · by_cases hq : k' = q
        · subst hq
          have hk : ¬ k = k' := fun hh => h hh.symm
          simp [hmInsert, hmFind?, h, hk]
        · simp [hmInsert, hmFind?, h, hq, ih]

theorem hmInsert_ne_nil {α : Type} (k : String) (v : α) (m : List (String × α)) :
    hmInsert k v m ≠ [] := by
  cases m with
  | nil => simp [hmInsert]
  | cons p rest =>
      obtain ⟨k', v'⟩ := p
      by_cases h : k' = k <;> simp [hmInsert, h]

theorem keys_hmInsert {α : Type} (k : String) (v : α) (m : List (String × α)) :
    (hmInsert k v m).map Prod.fst =
      if k ∈ m.map Prod.fst then m.map Prod.fst else m.map Prod.fst ++ [k] := by
  induction m with
  | nil => simp [hmInsert]
  | cons p rest ih =>
      obtain ⟨k', v'⟩ := p
      by_cases h : k' = k
      · subst h
        simp [hmInsert]
      · have hne : ¬ k = k' := fun hh => h hh.symm
        by_cases hmem : k ∈ rest.map Prod.fst <;>
          simp [hmInsert, h, hne, hmem, ih]

theorem keysNodup_hmInsert {α : Type} (k : String) (v : α) (m : List (String × α))
    (h : (m.map Prod.fst).Nodup) : ((hmInsert k v m).map Prod.fst).Nodup := by
  rw [keys_hmInsert]
  by_cases hmem : k ∈ m.map Prod.fst
  · simpa [hmem] using h
  · simp [hmem, List.nodup_append, h]

theorem mem_of_hmFind?_eq_some {α : Type} {k : String} {v : α}
    {m : List (String × α)} (h : hmFind? k m = some v) : (k, v) ∈ m := by
  induction m with
  | nil => simp [hmFind?] at h
  | cons p rest ih =>
      obtain ⟨k', v'⟩ := p
      by_cases hk : k' = k
      · subst hk
        simp [hmFind?] at h
        simp [h]
      · simp [hmFind?, hk] at h
        exact List.mem_cons_of_mem _ (ih h)

theorem hmFind?_eq_some_of_mem {α : Type} {k : String} {v : α}
    {m : List (String × α)} (hnd : (m.map Prod.fst).Nodup) (h : (k, v) ∈ m) :
    hmFind? k m = some v := by
  induction m with
  | nil => simp at h
  | cons p rest ih =>
      obtain ⟨k', v'⟩ := p
      simp at hnd
      rcases List.mem_cons.mp h with h1 | h1
      · obtain ⟨rfl, rfl⟩ := Prod.mk.injEq .. ▸ h1
        simp_all [hmFind?]
      · have hkne : ¬ k' = k := by
          intro hh
          subst hh
          exact hnd.1 v (by simpa using h1)
        simp [hmFind?, hkne]
        exact ih hnd.2 h1

theorem hmFind?_isSome_iff {α : Type} (k : String) (m : List (String × α)) :
    (hmFind? k m).isSome ↔ k ∈ m.map Prod.fst := by
  induction m with
  | nil => simp [hmFind?]
  | cons p rest ih =>
      obtain ⟨k', v'⟩ := p
      by_cases hk : k' = k
      · subst hk
        simp [hmFind?]
      · have : ¬ k = k' := fun hh => hk hh.symm
        simp [hmFind?, hk, this, ih]

/-!
## Deduplication lemmas
-/

theorem dedupFrom_append (c : List (String × W)) (ps qs : List (String × W)) :
    dedupFrom c (ps ++ qs) = dedupFrom (dedupFrom c ps) qs := by
  simp [dedupFrom, List.foldl_append]

theorem dedupFrom_cons (c : List (String × W)) (p : String × W)
    (ps : List (String × W)) :
    dedupFrom c (p :: ps) = dedupFrom (hmInsert p.1 p.2 c) ps := rfl

theorem dedupFrom_ne_nil (ps : List (String × W)) :
    ∀ c : List (String × W), c ≠ [] → dedupFrom c ps ≠ [] := by
  induction ps with
  | nil => intro c hc; simpa [dedupFrom] using hc
  | cons p rest ih =>
      intro c _
      rw [dedupFrom_cons]
      exact ih _ (hmInsert_ne_nil _ _ _)

theorem dedupP_ne_nil {ps : List (String × W)} (h : ps ≠ []) : dedupP ps ≠ [] := by
  cases ps with
  | nil => exact absurd rfl h
  | cons p rest =>
      rw [dedupP, dedupFrom_cons]
      exact dedupFrom_ne_nil _ _ (hmInsert_ne_nil _ _ _)

theorem keysNodup_dedupFrom (ps : List (String × W)) :
    ∀ c : List (String × W), (c.map Prod.fst).Nodup →
      ((dedupFrom c ps).map Prod.fst).Nodup := by
  induction ps with
  | nil => intro c hc; simpa [dedupFrom] using hc
  | cons p rest ih =>
      intro c hc
      rw [dedupFrom_cons]
      exact ih _ (keysNodup_hmInsert _ _ _ hc)

theorem keysNodup_dedupP (ps : List (String × W)) :
    ((dedupP ps).map Prod.fst).Nodup :=
  keysNodup_dedupFrom ps [] (by simp)

theorem hmFind?_dedupFrom (t : String) (ps : List (String × W)) :
    ∀ c : List (String × W), hmFind? t (dedupFrom c ps) =
      match lastWeight t ps with
      | some w => some w
      | none => hmFind? t c := by
  induction ps with
  | nil => intro c; simp [dedupFrom, lastWeight]
  | cons p rest ih =>
      intro c
      rw [dedupFrom_cons, ih]
      cases hlw : lastWeight t rest with
      | some w => simp [lastWeight, hlw]
      | none =>
          simp only [lastWeight, hlw, hmFind?_hmInsert]
          by_cases hp : p.1 = t <;> simp [hp]

theorem hmFind?_dedupP (t : String) (ps : List (String × W)) :
    hmFind? t (dedupP ps) = lastWeight t ps := by
  rw [dedupP, hmFind?_dedupFrom]
  cases lastWeight t ps <;> simp [hmFind?]

/-!
## `runFold` lemmas
-/

theorem hmFind?_runFold (q : String) (rs : List Run) :
    ∀ m : GMap, hmFind? q (runFold rs m) =
      match lastRunPairs q rs with
      | some ps => some (dedupP ps)
      | none => hmFind? q m := by
  induction rs with
  | nil => intro m; simp [runFold, lastRunPairs]
  | cons r rest ih =>
      intro m
      obtain ⟨k, ps⟩ := r
      rw [runFold, ih]
      cases hlr : lastRunPairs q rest with
      | some r' => simp [lastRunPairs, hlr]
      | none =>
          simp only [lastRunPairs, hlr, hmFind?_hmInsert]
          by_cases hk : k = q <;> simp [hk]

theorem lastRunPairs_eq_none_iff (q : String) (rs : List Run) :
    lastRunPairs q rs = none ↔ q ∉ rs.map Prod.fst := by
  induction rs with
  | nil => simp [lastRunPairs]
  | cons r rest ih =>
      obtain ⟨k, ps⟩ := r
      cases hlr : lastRunPairs q rest with
      | some r' =>
          have : q ∈ rest.map Prod.fst := by
            by_contra hq
            rw [← ih] at hq
            simp [hq] at hlr
          simp [lastRunPairs, hlr, this]
      | none =>
          have hq := ih.mp hlr
          by_cases hk : k = q
          · simp [lastRunPairs, hlr, hk, hq]
          · have : ¬ q = k := fun hh => hk hh.symm
            simp [lastRunPairs, hlr, hk, hq, this]

theorem lastRunPairs_eq_some_of_mem {k : String} {ps : List (String × W)}
    {rs : List Run} (hnd : (rs.map Prod.fst).Nodup) (h : (k, ps) ∈ rs) :
    lastRunPairs k rs = some ps := by
  induction rs with
  | nil => simp at h
  | cons r rest ih =>
      obtain ⟨k', ps'⟩ := r
      simp at hnd
      rcases List.mem_cons.mp h with h1 | h1
      · obtain ⟨rfl, rfl⟩ := Prod.mk.injEq .. ▸ h1
        have : lastRunPairs k rest = none := by
          rw [lastRunPairs_eq_none_iff]
          intro hmem
          simp at hmem
          obtain ⟨b, hb⟩ := hmem
          exact hnd.1 b hb
        simp [lastRunPairs, this]
      · have := ih hnd.2 h1
        simp [lastRunPairs, this]

theorem runFold_append (A B : List Run) :
    ∀ m : GMap, runFold (A ++ B) m = runFold B (runFold A m) := by
  induction A with
  | nil => intro m; rfl
  | cons r rest ih =>
      intro m
      obtain ⟨k, ps⟩ := r
      rw [List.cons_append, runFold, runFold, ih]

theorem lastRunPairs_append (q : String) (A B : List Run) :
    lastRunPairs q (A ++ B) =
      match lastRunPairs q B with
      | some r => some r
      | none => lastRunPairs q A := by
  induction A with
  | nil =>
      rw [List.nil_append]
      cases hB : lastRunPairs q B <;> simp [lastRunPairs, hB]
  | cons r rest ih =>
      obtain ⟨k, ps⟩ := r
      rw [List.cons_append, lastRunPairs, ih]
      cases hB : lastRunPairs q B <;> cases hA : lastRunPairs q rest <;>
        simp [lastRunPairs, hA]

theorem lastRunPairs_isSome_iff (q : String) (rs : List Run) :
    (lastRunPairs q rs).isSome ↔ q ∈ rs.map Prod.fst := by
  cases hlr : lastRunPairs q rs with
  | none => simp [(lastRunPairs_eq_none_iff q rs).mp hlr]
  | some ps =>
      simp only [Option.isSome_some, true_iff]
      by_contra hq
      rw [← lastRunPairs_eq_none_iff] at hq
      rw [hq] at hlr
      exact Option.noConfusion hlr

/-!
## The grouping loop as a run machine
-/

theorem wfRuns_cons {r : Run} {rest : List Run} (h : wfRuns (r :: rest) = true) :
    r.1 ≠ "" ∧ r.2 ≠ [] ∧ wfRuns rest = true ∧
      (∀ r2, rest.head? = some r2 → r2.1 ≠ r.1) := by
  cases rest with
  | nil =>
      simp [wfRuns] at h
      exact ⟨h.1, h.2, rfl, by simp⟩
  | cons r2 rest' =>
      simp [wfRuns] at h
      obtain ⟨⟨⟨h1, h2⟩, h3⟩, h4⟩ := h
      refine ⟨h1, h2, h4, ?_⟩
      intro r2' hr2'
      simp at hr2'
      subst hr2'
      exact fun hh => h3 hh.symm

theorem wfRuns_mem {rs : List Run} (h : wfRuns rs = true) :
    ∀ r ∈ rs, r.1 ≠ "" ∧ r.2 ≠ [] := by
  induction rs with
  | nil => simp
  | cons r rest ih =>
      intro r' hr'
      have hc := wfRuns_cons h
      rcases List.mem_cons.mp hr' with h1 | h1
      · subst h1; exact ⟨hc.1, hc.2.1⟩
      · exact ih hc.2.2.1 r' h1

theorem flattenRuns_nil : flattenRuns [] = [] := rfl

theorem flattenRuns_cons (r : Run) (rs : List Run) :
    flattenRuns (r :: rs) = runEntries r.1 r.2 ++ flattenRuns rs := by
  simp [flattenRuns]

theorem vnStepP_same (st : LoopSt) (t : String) (w : W) :
    vnStepP st (st.currentSrc, t, w) = { st with ctw := hmInsert t w st.ctw } := by
  obtain ⟨m, k, c⟩ := st
  simp [vnStepP]

theorem vnStepP_emptyCur (m : GMap) (c : List (String × W)) (k1 t : String) (w : W) :
    vnStepP ⟨m, "", c⟩ (k1, t, w) = ⟨m, k1, hmInsert t w c⟩ := by
  simp [vnStepP]

theorem vnStepP_flush (m : GMap) (k : String) (c : List (String × W))
    (k1 t : String) (w : W) (hk : k ≠ "") (hne : k ≠ k1) (hc : c ≠ []) :
    vnStepP ⟨m, k, c⟩ (k1, t, w) = ⟨hmInsert k c m, k1, [(t, w)]⟩ := by
  simp [vnStepP, hk, hne, hc, hmInsert]

theorem foldl_run (k : String) (ps : List (String × W)) :
    ∀ st : LoopSt, st.currentSrc = k →
      List.foldl vnStepP st (runEntries k ps) = ⟨st.map, k, dedupFrom st.ctw ps⟩ := by
  induction ps with
  | nil =>
      intro st h
      obtain ⟨m, k', c⟩ := st
      simp at h
      subst h
      simp [runEntries, dedupFrom]
  | cons p rest ih =>
      intro st h
      have hstep : vnStepP st (k, p.1, p.2) = { st with ctw := hmInsert p.1 p.2 st.ctw } := by
        rw [← h]; exact vnStepP_same st p.1 p.2
      have : runEntries k (p :: rest) = (k, p.1, p.2) :: runEntries k rest := by
        simp [runEntries]
      rw [this, List.foldl_cons, hstep,
        ih { st with ctw := hmInsert p.1 p.2 st.ctw } h]
      simp [dedupFrom_cons]

theorem foldl_flattenRuns_mid :
    ∀ (rs : List Run) (m : GMap) (k : String) (c : List (String × W)),
      k ≠ "" → c ≠ [] → wfRuns rs = true →
      (∀ r1, rs.head? = some r1 → r1.1 ≠ k) →
      List.foldl vnStepP ⟨m, k, c⟩ (flattenRuns rs) = endState rs m k c := by
  intro rs
  induction rs with
  | nil => intro m k c _ _ _ _; simp [flattenRuns_nil, endState]
  | cons r rest ih =>
      intro m k c hk hc hwf hhd
      obtain ⟨k1, ps⟩ := r
      have hw := wfRuns_cons hwf
      have hk1 : k1 ≠ "" := hw.1
      have hps : ps ≠ [] := hw.2.1
      have hne : k ≠ k1 := fun hh => (hhd (k1, ps) rfl) hh.symm
      have hhd' : ∀ r1, rest.head? = some r1 → r1.1 ≠ k1 := hw.2.2.2
      obtain ⟨p, ps', rfl⟩ := List.exists_cons_of_ne_nil hps
      have hent : runEntries k1 (p :: ps') = (k1, p.1, p.2) :: runEntries k1 ps' := by
        simp [runEntries]
      rw [flattenRuns_cons, List.foldl_append, hent, List.foldl_cons,
        vnStepP_flush m k c k1 p.1 p.2 hk hne hc,
        foldl_run k1 ps' ⟨hmInsert k c m, k1, [(p.1, p.2)]⟩ rfl]
      have hded : dedupFrom [(p.1, p.2)] ps' = dedupP (p :: ps') := by
        simp [dedupP, dedupFrom_cons, hmInsert]
      rw [hded, ih (hmInsert k c m) k1 (dedupP (p :: ps'))
        hk1 (dedupP_ne_nil (by simp)) hw.2.2.1 hhd']
      rfl

theorem foldl_flattenRuns_emptyCur (k1 : String) (ps : List (String × W))
    (rs : List Run) (m : GMap) (c : List (String × W)) (hk1 : k1 ≠ "")
    (hwf : wfRuns ((k1, ps) :: rs) = true) :
    List.foldl vnStepP ⟨m, "", c⟩ (flattenRuns ((k1, ps) :: rs)) =
      endState rs m k1 (dedupFrom c ps) := by
  have hw := wfRuns_cons hwf
  have hps : ps ≠ [] := hw.2.1
  obtain ⟨p, ps', rfl⟩ := List.exists_cons_of_ne_nil hps
  have hent : runEntries k1 (p :: ps') = (k1, p.1, p.2) :: runEntries k1 ps' := by
    simp [runEntries]
  rw [flattenRuns_cons, List.foldl_append, hent, List.foldl_cons,
    vnStepP_emptyCur m c k1 p.1 p.2,
    foldl_run k1 ps' ⟨m, k1, hmInsert p.1 p.2 c⟩ rfl]
  have hded : dedupFrom (hmInsert p.1 p.2 c) ps' = dedupFrom c (p :: ps') := by
    simp [dedupFrom_cons]
  rw [hded]
  have hdne : dedupFrom c (p :: ps') ≠ [] := by
    rw [dedupFrom_cons]
    exact dedupFrom_ne_nil _ _ (hmInsert_ne_nil _ _ _)
  exact foldl_flattenRuns_mid rs m k1 (dedupFrom c (p :: ps')) hk1
    hdne hw.2.2.1 hw.2.2.2

theorem endState_props :
    ∀ (rs : List Run) (m : GMap) (k : String) (c : List (String × W)),
      k ≠ "" → c ≠ [] → (∀ r ∈ rs, r.1 ≠ "" ∧ r.2 ≠ []) →
      (endState rs m k c).currentSrc ≠ "" ∧ (endState rs m k c).ctw ≠ [] ∧
        hmInsert (endState rs m k c).currentSrc (endState rs m k c).ctw
          (endState rs m k c).map = runFold rs (hmInsert k c m) := by
  intro rs
  induction rs with
  | nil => intro m k c hk hc _; exact ⟨hk, hc, rfl⟩
  | cons r rest ih =>
      intro m k c hk hc hmem
      obtain ⟨k1, ps⟩ := r
      have h1 := hmem (k1, ps) (by simp)
      have := ih (hmInsert k c m) k1 (dedupP ps) h1.1 (dedupP_ne_nil h1.2)
        (fun r' hr' => hmem r' (List.mem_cons_of_mem _ hr'))
      simpa [endState, runFold] using this

theorem vnPure_flattenRuns (rs : List Run) (hwf : wfRuns rs = true) :
    vnPure (flattenRuns rs) = runFold rs [] := by
  cases rs with
  | nil => simp [vnPure, flattenRuns_nil, runFold]
  | cons r rest =>
      obtain ⟨k1, ps⟩ := r
      have hw := wfRuns_cons hwf
      have hst : List.foldl vnStepP ⟨[], "", []⟩ (flattenRuns ((k1, ps) :: rest)) =
          endState rest [] k1 (dedupP ps) :=
        foldl_flattenRuns_emptyCur k1 ps rest [] [] hw.1 hwf
      have hprops := endState_props rest [] k1 (dedupP ps) hw.1
        (dedupP_ne_nil hw.2.1) (wfRuns_mem hw.2.2.1)
      rw [vnPure, hst]
      simp only [hprops.2.1, ne_eq, not_false_eq_true, if_pos]
      rw [hprops.2.2]
      rfl

/-!
## Bridge: the indexed `validate_net` loop computes `vnPure` of the entries
-/

theorem zip_map_one (l : List String) :
    ∀ m : Nat, l.length ≤ m →
      l.zip (List.replicate m (1 : W)) = l.map (fun t => (t, (1 : W))) := by
  induction l with
  | nil => intro m _; simp
  | cons a l ih =>
      intro m hm
      cases m with
      | zero => simp at hm
      | succ m' =>
          simp only [List.replicate, List.zip_cons_cons, List.map_cons]
          rw [ih m' (by simpa using hm)]

theorem vnStep_some_eq (target : List String) (we : List W) (st : LoopSt)
    (i : Nat) (s : String) (hi : i < we.length) :
    vnStep target (some we) st (i, s) =
      .ok (vnStepP st (s, target.getD i "", we.get ⟨i, hi⟩)) := by
  simp [vnStep, vnStepP, hi]

theorem vnStep_none_eq (target : List String) (st : LoopSt) (i : Nat) (s : String) :
    vnStep target none st (i, s) =
      .ok (vnStepP st (s, target.getD i "", (1 : W))) := rfl

theorem foldlM_vnStep_some (target : List String) (we : List W) :
    ∀ (srcs : List String) (i : Nat) (st : LoopSt),
      i + srcs.length ≤ target.length → i + srcs.length ≤ we.length →
      (srcs.enumFrom i).foldlM (vnStep target (some we)) st =
        .ok (List.foldl vnStepP st (srcs.zip ((target.drop i).zip (we.drop i)))) := by
  intro srcs
  induction srcs with
  | nil => intro i st _ _; rfl
  | cons s rest ih =>
      intro i st ht hw
      simp only [List.length_cons] at ht hw
      have hit : i < target.length := by omega
      have hiw : i < we.length := by omega
      rw [List.enumFrom_cons, List.foldlM_cons, vnStep_some_eq target we st i s hiw]
      have hbind : ∀ (x : LoopSt) (f : LoopSt → Except VErr LoopSt),
          (Except.ok x >>= f) = f x := fun _ _ => rfl
      rw [hbind, ih (i + 1) _ (by omega) (by omega)]
      rw [List.drop_eq_getElem_cons hit, List.drop_eq_getElem_cons hiw]
      simp only [List.zip_cons_cons, List.foldl_cons]
      rw [List.getD_eq_getElem target "" hit]
      rfl

theorem foldlM_vnStep_none (target : List String) :
    ∀ (srcs : List String) (i : Nat) (st : LoopSt),
      i + srcs.length ≤ target.length →
      (srcs.enumFrom i).foldlM (vnStep target none) st =
        .ok (List.foldl vnStepP st
          (srcs.zip ((target.drop i).map (fun t => (t, (1 : W)))))) := by
  intro srcs
  induction srcs with
  | nil => intro i st _; rfl
  | cons s rest ih =>
      intro i st ht
      simp only [List.length_cons] at ht
      have hit : i < target.length := by omega
      rw [List.enumFrom_cons, List.foldlM_cons, vnStep_none_eq target st i s]
      have hbind : ∀ (x : LoopSt) (f : LoopSt → Except VErr LoopSt),
          (Except.ok x >>= f) = f x := fun _ _ => rfl
      rw [hbind, ih (i + 1) _ (by omega)]
      rw [List.drop_eq_getElem_cons hit]
      simp only [List.map_cons, List.zip_cons_cons, List.foldl_cons]
      rw [List.getD_eq_getElem target "" hit]

theorem validate_net_ok (source target : List String) (wopt : Option (List W))
    (vb : Bool) (hlen : source.length = target.length)
    (hw : ∀ we, wopt = some we → source.length ≤ we.length) :
    validate_net source target wopt vb =
      .ok (vnPure (entriesOf source target wopt)) := by
  rw [validate_net, if_neg (by simp [hlen])]
  cases wopt with
  | none =>
      have h := foldlM_vnStep_none target source 0 ⟨[], "", []⟩ (by simpa using hlen.le)
      rw [show source.enum = source.enumFrom 0 from rfl, h]
      rw [List.drop_zero] at h ⊢
      have hz : target.map (fun t => (t, (1 : W))) =
          target.zip (wlistOf none target.length) := by
        rw [wlistOf, zip_map_one target target.length le_rfl]
      rw [hz]
      rfl
  | some we =>
      have hwe : source.length ≤ we.length := hw we rfl
      have h := foldlM_vnStep_some target we source 0 ⟨[], "", []⟩
        (by simpa using hlen.le) (by simpa using hwe)
      rw [show source.enum = source.enumFrom 0 from rfl, h]
      simp only [List.drop_zero]
      rfl

theorem runSources_length (rs : List Run) :
    (runSources rs).length = (runTargets rs).length := by
  induction rs with
  | nil => rfl
  | cons r rest ih =>
      simp only [runSources, runTargets, List.flatMap_cons, List.length_append,
        List.length_map] at ih ⊢
      omega

theorem runWeights_length (rs : List Run) :
    (runWeights rs).length = (runSources rs).length := by
  induction rs with
  | nil => rfl
  | cons r rest ih =>
      simp only [runSources, runWeights, List.flatMap_cons, List.length_append,
        List.length_map] at ih ⊢
      omega

theorem mem_runSources_iff {rs : List Run} (hwf : wfRuns rs = true) (k : String) :
    k ∈ runSources rs ↔ k ∈ rs.map Prod.fst := by
  rw [runSources, List.mem_flatMap]
  simp only [List.mem_map]
  constructor
  · rintro ⟨r, hr, hk⟩
    obtain ⟨p, _, rfl⟩ := hk
    exact ⟨r, hr, rfl⟩
  · rintro ⟨r, hr, rfl⟩
    have hne := (wfRuns_mem hwf r hr).2
    obtain ⟨p, ps', hps⟩ := List.exists_cons_of_ne_nil hne
    exact ⟨r, hr, ⟨p, by rw [hps]; simp, rfl⟩⟩

theorem zip_run_single (k : String) (ps : List (String × W)) :
    (ps.map (fun _ => k)).zip ((ps.map Prod.fst).zip (ps.map Prod.snd)) =
      runEntries k ps := by
  induction ps with
  | nil => rfl
  | cons p rest ih =>
      simp only [List.map_cons, List.zip_cons_cons, runEntries] at ih ⊢
      rw [ih]

theorem zip_run_single_one (k : String) (ps : List (String × W))
    (h : ∀ p ∈ ps, p.2 = 1) :
    (ps.map (fun _ => k)).zip ((ps.map Prod.fst).map (fun t => (t, (1 : W)))) =
      runEntries k ps := by
  induction ps with
  | nil => rfl
  | cons p rest ih =>
      simp only [List.map_cons, List.zip_cons_cons, runEntries] at ih ⊢
      rw [ih (fun p hp => h p (List.mem_cons_of_mem _ hp)),
        h p (List.mem_cons_self _ _)]

theorem zip_runs_eq (rs : List Run) :
    (runSources rs).zip ((runTargets rs).zip (runWeights rs)) = flattenRuns rs := by
  induction rs with
  | nil => rfl
  | cons r rest ih =>
      obtain ⟨k, ps⟩ := r
      rw [runSources, runTargets, runWeights, List.flatMap_cons, List.flatMap_cons,
        List.flatMap_cons, List.zip_append (by simp), List.zip_append (by simp),
        flattenRuns_cons]
      rw [runSources, runTargets, runWeights] at ih
      rw [ih, zip_run_single]

theorem zip_runs_eq_one (rs : List Run) (h1 : allWeightsOne rs = true) :
    (runSources rs).zip ((runTargets rs).map (fun t => (t, (1 : W)))) =
      flattenRuns rs := by
  induction rs with
  | nil => rfl
  | cons r rest ih =>
      obtain ⟨k, ps⟩ := r
      simp only [allWeightsOne, List.all_cons, Bool.and_eq_true, List.all_eq_true,
        decide_eq_true_eq] at h1
      rw [runSources, runTargets, List.flatMap_cons, List.flatMap_cons,
        List.map_append, List.zip_append (by simp), flattenRuns_cons]
      rw [runSources, runTargets] at ih
      rw [ih (by simpa [allWeightsOne, List.all_eq_true] using h1.2),
        zip_run_single_one k ps h1.1]

/-- The full grouping result on a flattened run decomposition. -/
theorem validate_net_runs (rs : List Run) (wopt : Option (List W)) (vb : Bool)
    (hwf : wfRuns rs = true)
    (hw : wopt = some (runWeights rs) ∨ (wopt = none ∧ allWeightsOne rs = true)) :
    validate_net (runSources rs) (runTargets rs) wopt vb = .ok (runFold rs []) := by
  have hlen := runSources_length rs
  rcases hw with hw | ⟨hw, h1⟩
  · subst hw
    rw [validate_net_ok (runSources rs) (runTargets rs) _ vb hlen
      (by intro we hwe; cases hwe; rw [runWeights_length])]
    rw [entriesOf, wlistOf, zip_runs_eq rs, vnPure_flattenRuns rs hwf]
  · subst hw
    rw [validate_net_ok (runSources rs) (runTargets rs) none vb hlen (by simp)]
    rw [entriesOf, wlistOf, zip_map_one _ _ le_rfl, zip_runs_eq_one rs h1,
      vnPure_flattenRuns rs hwf]

/-!
## `new_from_vec` lemmas
-/

theorem resolveGroup_lengths {ntid : List (String × Nat)} :
    ∀ {v : List (String × W)} {cs : List Nat} {ws : List W},
      resolveGroup ntid v = some (cs, ws) →
      cs.length = v.length ∧ ws.length = v.length := by
  intro v
  induction v with
  | nil =>
      intro cs ws h
      simp [resolveGroup] at h
      obtain ⟨rfl, rfl⟩ := h
      exact ⟨rfl, rfl⟩
  | cons p rest ih =>
      intro cs ws h
      obtain ⟨g, w⟩ := p
      rw [resolveGroup] at h
      cases hf : hmFind? g ntid with
      | none => rw [hf] at h; exact absurd h (by simp)
      | some idx =>
          rw [hf] at h
          cases hr : resolveGroup ntid rest with
          | none => rw [hr] at h; exact absurd h (by simp)
          | some cw =>
              obtain ⟨cs', ws'⟩ := cw
              rw [hr] at h
              simp at h
              obtain ⟨rfl, rfl⟩ := h
              have := ih hr
              simp [this.1, this.2]

theorem resolveGroup_isSome_iff (ntid : List (String × Nat)) :
    ∀ v : List (String × W),
      (resolveGroup ntid v).isSome ↔ ∀ p ∈ v, (hmFind? p.1 ntid).isSome := by
  intro v
  induction v with
  | nil => simp [resolveGroup]
  | cons p rest ih =>
      obtain ⟨g, w⟩ := p
      rw [resolveGroup]
      cases hf : hmFind? g ntid with
      | none =>
          simp only [Option.isSome_none]
          constructor
          · intro h; exact absurd h (by simp)
          · intro h
            have := h (g, w) (by simp)
            rw [hf] at this
            exact absurd this (by simp)
      | some idx =>
          cases hr : resolveGroup ntid rest with
          | none =>
              simp only [Option.isSome_none]
              constructor
              · intro h; exact absurd h (by simp)
              · intro h
                have : (resolveGroup ntid rest).isSome := by
                  rw [ih]
                  intro p hp
                  exact h p (List.mem_cons_of_mem _ hp)
                rw [hr] at this
                exact absurd this (by simp)
          | some cw =>
              obtain ⟨cs', ws'⟩ := cw
              simp only [Option.isSome_some, true_iff]
              intro p hp
              rcases List.mem_cons.mp hp with h1 | h1
              · subst h1; simp [hf]
              · have : (resolveGroup ntid rest).isSome := by rw [hr]; rfl
                rw [ih] at this
                exact this p h1

theorem flattenLoop_isSome_iff (ntid : List (String × Nat)) :
    ∀ (runs : List Run) (names : List String) (starts offs cnct : List Nat)
      (ws : List W) (i : Nat),
      (flattenLoop ntid runs names starts offs cnct ws i).isSome ↔
        ∀ r ∈ runs, ∀ p ∈ r.2, (hmFind? p.1 ntid).isSome := by
  intro runs
  induction runs with
  | nil => intro names starts offs cnct ws i; simp [flattenLoop]
  | cons r rest ih =>
      intro names starts offs cnct ws i
      obtain ⟨k, v⟩ := r
      rw [flattenLoop]
      cases hr : resolveGroup ntid v with
      | none =>
          simp only [Option.isSome_none]
          constructor
          · intro h; exact absurd h (by simp)
          · intro h
            have : (resolveGroup ntid v).isSome := by
              rw [resolveGroup_isSome_iff]
              intro p hp
              exact h (k, v) (by simp) p hp
            rw [hr] at this
            exact absurd this (by simp)
      | some cw =>
          obtain ⟨cs, gws⟩ := cw
          rw [ih]
          constructor
          · intro h r' hr'
            rcases List.mem_cons.mp hr' with h1 | h1
            · subst h1
              intro p hp
              have : (resolveGroup ntid v).isSome := by rw [hr]; rfl
              rw [resolveGroup_isSome_iff] at this
              exact this p hp
            · exact h r' h1
          · intro h r' hr'
            exact h r' (List.mem_cons_of_mem _ hr')

theorem flattenLoop_names (ntid : List (String × Nat)) :
    ∀ (runs : List Run) (names : List String) (starts offs cnct : List Nat)
      (ws : List W) (i : Nat) (net : PathwayNetwork),
      flattenLoop ntid runs names starts offs cnct ws i = some net →
      net.names = names ++ runs.map Prod.fst := by
  intro runs
  induction runs with
  | nil =>
      intro names starts offs cnct ws i net h
      simp [flattenLoop] at h
      subst h
      simp
  | cons r rest ih =>
      intro names starts offs cnct ws i net h
      obtain ⟨k, v⟩ := r
      rw [flattenLoop] at h
      cases hr : resolveGroup ntid v with
      | none => rw [hr] at h; exact absurd h (by simp)
      | some cw =>
          obtain ⟨cs, gws⟩ := cw
          rw [hr] at h
          have := ih _ _ _ _ _ _ _ h
          simp [this]

theorem new_from_vec_eq {sources targets : List String} {wopt : Option (List W)}
    {M : GMap} (features : List String) (tmin : Nat)
    (h : validate_net sources targets wopt false = .ok M) :
    new_from_vec sources targets wopt features tmin =
      flattenLoop (name_to_id features) (M.filter (fun kv => tmin ≤ kv.2.length))
        [] [] [] [] [] 0 := by
  rw [new_from_vec, h]

/-!
## Distinct keys of the grouping result
-/

theorem vnStep_keysNodup {target : List String} {weights : Option (List W)}
    {st st' : LoopSt} {e : Nat × String} (h : vnStep target weights st e = .ok st')
    (hnd : (st.map.map Prod.fst).Nodup) : (st'.map.map Prod.fst).Nodup := by
  obtain ⟨m, k, c⟩ := st
  have hins : (m.map Prod.fst).Nodup →
      ((hmInsert k c m).map Prod.fst).Nodup := keysNodup_hmInsert k c m
  by_cases h1 : k = ""
  · cases weights with
    | none =>
        simp [vnStep, h1] at h
        rw [← h]
        exact hnd
    | some we =>
        by_cases hlt : e.1 < we.length
        · simp [vnStep, h1, hlt] at h
          rw [← h]
          exact hnd
        · simp [vnStep, h1, hlt] at h
  · by_cases h2 : k ≠ e.2 ∧ c ≠ []
    · cases weights with
      | none =>
          simp [vnStep, h1, h2] at h
          rw [← h]
          exact hins hnd
      | some we =>
          by_cases hlt : e.1 < we.length
          · simp [vnStep, h1, h2, hlt] at h
            rw [← h]
            exact hins hnd
          · simp [vnStep, h1, h2, hlt] at h
    · cases weights with
      | none =>
          simp [vnStep, h1, h2] at h
          rw [← h]
          exact hnd
      | some we =>
          by_cases hlt : e.1 < we.length
          · simp [vnStep, h1, h2, hlt] at h
            rw [← h]
            exact hnd
          · simp [vnStep, h1, h2, hlt] at h

theorem foldlM_keysNodup {target : List String} {weights : Option (List W)} :
    ∀ (l : List (Nat × String)) (st st' : LoopSt),
      l.foldlM (vnStep target weights) st = .ok st' →
      (st.map.map Prod.fst).Nodup → (st'.map.map Prod.fst).Nodup := by
  intro l
  induction l with
  | nil =>
      intro st st' h hnd
      have : st = st' := (Except.ok.injEq ..).mp h
      rw [← this]
      exact hnd
  | cons a rest ih =>
      intro st st' h hnd
      rw [List.foldlM_cons] at h
      cases hs : vnStep target weights st a with
      | error e => rw [hs] at h; exact Except.noConfusion h
      | ok st1 =>
          rw [hs] at h
          exact ih st1 st' h (vnStep_keysNodup hs hnd)

theorem validate_net_keysNodup {source target : List String}
    {wopt : Option (List W)} {vb : Bool} {M : GMap}
    (h : validate_net source target wopt vb = .ok M) : (M.map Prod.fst).Nodup := by
  rw [validate_net] at h
  by_cases hl : source.length ≠ target.length
  · rw [if_pos hl] at h; exact Except.noConfusion h
  · rw [if_neg hl] at h
    cases hst : source.enum.foldlM (vnStep target wopt) ⟨[], "", []⟩ with
    | error e => rw [hst] at h; exact Except.noConfusion h
    | ok st =>
        rw [hst] at h
        have hnd := foldlM_keysNodup source.enum ⟨[], "", []⟩ st hst (by simp)
        have hM : (if st.ctw ≠ [] then hmInsert st.currentSrc st.ctw st.map
            else st.map) = M := (Except.ok.injEq ..).mp h
        rw [← hM]
        by_cases hc : st.ctw ≠ []
        · rw [if_pos hc]; exact keysNodup_hmInsert _ _ _ hnd
        · rw [if_neg hc]; exact hnd

/-!
## Structural invariants of the flattening loop
-/

theorem flattenLoop_wfNet (ntid : List (String × Nat)) :
    ∀ (runs : List Run) (names : List String) (starts offs cnct : List Nat)
      (ws : List W) (net : PathwayNetwork),
      names.length = starts.length → starts.length = offs.length →
      cnct.length = offs.sum → ws.length = offs.sum →
      (∀ j, j < starts.length → starts.getD j 0 = (offs.take j).sum) →
      flattenLoop ntid runs names starts offs cnct ws offs.sum = some net →
      WfNet net := by
  intro runs
  induction runs with
  | nil =>
      intro names starts offs cnct ws net h1 h2 h3 h4 h5 h
      simp [flattenLoop] at h
      subst h
      exact ⟨h1, h2, h3, h4, h5⟩
  | cons r rest ih =>
      intro names starts offs cnct ws net h1 h2 h3 h4 h5 h
      obtain ⟨k, v⟩ := r
      rw [flattenLoop] at h
      cases hr : resolveGroup ntid v with
      | none => rw [hr] at h; exact absurd h (by simp)
      | some cw =>
          obtain ⟨cs, gws⟩ := cw
          rw [hr] at h
          have hlens := resolveGroup_lengths hr
          have hsum : (offs ++ [v.length]).sum = offs.sum + v.length := by
            simp
          refine ih (names ++ [k]) (starts ++ [offs.sum]) (offs ++ [v.length])
            (cnct ++ cs) (ws ++ gws) net ?_ ?_ ?_ ?_ ?_ ?_
          · simp [h1]
          · simp [h2]
          · simp [hsum, h3, hlens.1]
          · simp [hsum, h4, hlens.2]
          · intro j hj
            simp only [List.length_append, List.length_cons, List.length_nil] at hj
            by_cases hlt : j < starts.length
            · rw [List.getD_append _ _ _ _ hlt,
                List.take_append_of_le_length (by omega : j ≤ offs.length), h5 j hlt]
            · have hje : j = starts.length := by omega
              subst hje
              rw [List.getD_append_right _ _ _ _ le_rfl]
              simp only [Nat.sub_self, List.getD_cons_zero]
              rw [List.take_append_of_le_length (by omega : starts.length ≤ offs.length)]
              rw [h2, List.take_length]
          · rw [← hsum] at h
            exact h

/-- The claim-level consequences of `WfNet`: in-bounds group slices and
pairwise-disjoint (in fact consecutive) group slices. -/
theorem wfNet_bounds {n : PathwayNetwork} (h : WfNet n) :
    (∀ i, i < n.offsets.length →
      n.starts.getD i 0 + n.offsets.getD i 0 ≤ n.cnct.length) ∧
    (∀ i j, i < j → j < n.offsets.length →
      n.starts.getD i 0 + n.offsets.getD i 0 ≤ n.starts.getD j 0) := by
  obtain ⟨h1, h2, h3, h4, h5⟩ := h
  have hstep : ∀ i, i < n.offsets.length →
      n.starts.getD i 0 + n.offsets.getD i 0 = (n.offsets.take (i + 1)).sum := by
    intro i hi
    rw [h5 i (by omega), List.take_succ, List.sum_append,
      List.getD_eq_getElem n.offsets 0 hi]
    simp [List.getElem?_eq_getElem hi]
  have hmono : ∀ a b, a ≤ b → (n.offsets.take a).sum ≤ (n.offsets.take b).sum := by
    intro a b hab
    conv_rhs => rw [← List.take_append_drop a (n.offsets.take b)]
    rw [List.sum_append, List.take_take, min_eq_left hab]
    omega
  constructor
  · intro i hi
    rw [hstep i hi, h3]
    calc (n.offsets.take (i + 1)).sum ≤ (n.offsets.take n.offsets.length).sum :=
          hmono _ _ (by omega)
      _ = n.offsets.sum := by rw [List.take_length]
  · intro i j hij hj
    rw [hstep i (by omega), h5 j (by omega)]
    exact hmono _ _ (by omega)

/-!
## Claim theorems
-/

/-- C10: `validate_net`'s fourth boolean parameter (`verbose`) has no effect:
for every input, the result with `true` equals the result with `false`,
both for the returned map and for every failure mode. -/
theorem claim_C10_verbose_has_no_effect (source target : List String)
    (weights : Option (List W)) :
    validate_net source target weights true =
      validate_net source target weights false := rfl

/-- C4 counterexample: with `sources = ["a"]`, `targets = ["x"]` and a
`weights` sequence of length 2, `validate_net` does **not** fail with a
`LengthMismatch`; it succeeds and silently ignores the extra weight,
refuting the claim that a weights-length mismatch is rejected. -/
theorem claim_C4_counterexample :
    validate_net ["a"] ["x"] (some [2, 3]) false = .ok [("a", [("x", 2)])] := by
  decide

/-- C4 (amended): if `sources` and `targets` have different lengths the call
fails with `LengthMismatch` before any grouping work; the length of `weights`
is **not** checked — whenever it is at least `sources.length`, the call
succeeds (extra entries are silently ignored). -/
theorem claim_C4_length_mismatch (source target : List String)
    (wopt : Option (List W)) (we : List W) (vb : Bool) :
    (source.length ≠ target.length →
      validate_net source target wopt vb = .error .lengthMismatch) ∧
    (source.length = target.length → source.length ≤ we.length →
      ∃ M, validate_net source target (some we) vb = .ok M) := by
  constructor
  · intro h
    rw [validate_net, if_pos h]
  · intro h1 h2
    refine ⟨_, validate_net_ok source target (some we) vb h1 ?_⟩
    intro we' hwe'
    injection hwe' with h3
    rw [← h3]
    exact h2

/-- C4 witness: concrete instances of both parts of the amended claim. -/
theorem claim_C4_witness :
    validate_net ["a", "b"] ["x"] none false = .error .lengthMismatch ∧
    ∃ M, validate_net ["a"] ["x"] (some [2]) false = .ok M :=
  ⟨(claim_C4_length_mismatch ["a", "b"] ["x"] none [] false).1 (by decide),
   (claim_C4_length_mismatch ["a"] ["x"] none [2] false).2 (by decide) (by decide)⟩

/-- C1 counterexample: for the source-contiguous, aligned input
`sources = ["", "a"]`, `targets = ["x", "y"]`, `validate_net` succeeds but
the empty-string source key gets **no** map entry (its pair is folded into
group `"a"`), so the keys are not the distinct source keys as claimed. -/
theorem claim_C1_counterexample :
    validate_net ["", "a"] ["x", "y"] none false =
      .ok [("a", [("x", 1), ("y", 1)])] ∧
    hmFind? "" [("a", [("x", 1), ("y", 1)])] = (none : Option (List (String × W))) := by
  exact ⟨by decide, by decide⟩

/-- C1 (amended): for every source-contiguous input with pairwise-distinct,
**non-empty** source keys (presented as its run decomposition) and aligned
weights (or absent weights, every weight defaulting to `1.0`),
`validate_net` succeeds, its keys are exactly the distinct source keys, and
each key maps to the deduplicated pairs of its run. -/
theorem claim_C1_grouping (rs : List Run) (wopt : Option (List W)) (vb : Bool)
    (hwf : wfRuns rs = true) (hnd : (rs.map Prod.fst).Nodup)
    (hw : wopt = some (runWeights rs) ∨ (wopt = none ∧ allWeightsOne rs = true)) :
    ∃ M, validate_net (runSources rs) (runTargets rs) wopt vb = .ok M ∧
      (∀ k, (hmFind? k M).isSome ↔ k ∈ runSources rs) ∧
      (∀ k ps, (k, ps) ∈ rs → hmFind? k M = some (dedupP ps)) := by
  refine ⟨runFold rs [], validate_net_runs rs wopt vb hwf hw, ?_, ?_⟩
  · intro k
    rw [hmFind?_runFold, mem_runSources_iff hwf k, ← lastRunPairs_isSome_iff]
    cases lastRunPairs k rs <;> simp [hmFind?]
  · intro k ps hmem
    rw [hmFind?_runFold, lastRunPairs_eq_some_of_mem hnd hmem]

/-- C1 witness: Scenario A (`sources = ["a","a","b"]`, `targets =
["x","y","x"]`, no weights) instantiating the amended claim; the deduplicated
groups are `"a" ↦ [(x,1),(y,1)]` and `"b" ↦ [(x,1)]`, and no other key is
present. -/
theorem claim_C1_witness :
    runSources runsA = ["a", "a", "b"] ∧ runTargets runsA = ["x", "y", "x"] ∧
    validate_net (runSources runsA) (runTargets runsA) none false = .ok mapA ∧
    hmFind? "a" mapA = some [("x", 1), ("y", 1)] ∧
    hmFind? "b" mapA = some [("x", 1)] ∧
    hmFind? "c" mapA = (none : Option (List (String × W))) := by
  obtain ⟨M, hok, hkeys, hvals⟩ := claim_C1_grouping runsA none false (by decide)
    (by decide) (Or.inr ⟨rfl, by decide⟩)
  have h2 : validate_net (runSources runsA) (runTargets runsA) none false =
      .ok mapA := by decide
  rw [hok] at h2
  injection h2 with h3
  subst h3
  refine ⟨by decide, by decide, hok, ?_, ?_, ?_⟩
  · have := hvals "a" [("x", 1), ("y", 1)] (by decide)
    rw [this]
    decide
  · have := hvals "b" [("x", 1)] (by decide)
    rw [this]
    decide
  · have := hkeys "c"
    cases hf : hmFind? "c" mapA with
    | none => rfl
    | some v =>
        rw [hf] at this
        have hmem : "c" ∈ runSources runsA := this.mp rfl
        exact absurd hmem (by decide)

/-- C6: within one contiguous run of a source key, a repeated target key is
deduplicated last-write-wins — the group holds a single entry for that
target, carrying the weight of its last occurrence — and no error is raised. -/
theorem claim_C6_last_write_wins (rs : List Run) (wopt : Option (List W))
    (k t : String) (ps : List (String × W))
    (hwf : wfRuns rs = true) (hnd : (rs.map Prod.fst).Nodup)
    (hw : wopt = some (runWeights rs) ∨ (wopt = none ∧ allWeightsOne rs = true))
    (hmem : (k, ps) ∈ rs)
    (hdup : 2 ≤ (ps.map Prod.fst).count t) :
    ∃ M, validate_net (runSources rs) (runTargets rs) wopt false = .ok M ∧
      hmFind? k M = some (dedupP ps) ∧
      hmFind? t (dedupP ps) = lastWeight t ps ∧
      ((dedupP ps).map Prod.fst).Nodup := by
  refine ⟨runFold rs [], validate_net_runs rs wopt false hwf hw, ?_,
    hmFind?_dedupP t ps, keysNodup_dedupP ps⟩
  rw [hmFind?_runFold, lastRunPairs_eq_some_of_mem hnd hmem]

/-- C6 witness: Scenario B — `sources = ["a","a"]`, `targets = ["x","x"]`,
`weights = [2.0, 5.0]` — no error is raised and the group of `"a"` is the
single member `(x, 5.0)`. -/
theorem claim_C6_witness :
    runSources [("a", [("x", 2), ("x", 5)])] = ["a", "a"] ∧
    runTargets [("a", [("x", 2), ("x", 5)])] = ["x", "x"] ∧
    validate_net ["a", "a"] ["x", "x"] (some [2, 5]) false =
      .ok [("a", [("x", 5)])] ∧
    hmFind? "a" [("a", [("x", (5 : W))])] = some [("x", 5)] ∧
    lastWeight "x" [("x", 2), ("x", 5)] = some (5 : W) := by
  obtain ⟨M, hok, hfind, hlw, hnd⟩ := claim_C6_last_write_wins
    [("a", [("x", 2), ("x", 5)])] (some [2, 5]) "a" "x" [("x", 2), ("x", 5)]
    (by decide) (by decide) (Or.inl (by decide)) (by decide) (by decide)
  have h2 : validate_net ["a", "a"] ["x", "x"] (some [2, 5]) false =
      .ok [("a", [("x", 5)])] := by decide
  have hM : M = [("a", [("x", (5 : W))])] := Except.ok.inj (hok.symm.trans h2)
  subst hM
  refine ⟨by decide, by decide, h2, ?_, by decide⟩
  rw [hfind]
  decide

/-- C8: when the same source key occurs in two (or more) disjoint runs, the
later run's flush overwrites the earlier entry: the returned map holds for
that key exactly the deduplicated pairs of its **last** run. -/
theorem claim_C8_later_run_overwrites (rs : List Run) (wopt : Option (List W))
    (k : String) (ps : List (String × W))
    (hwf : wfRuns rs = true)
    (hw : wopt = some (runWeights rs) ∨ (wopt = none ∧ allWeightsOne rs = true))
    (htwo : 2 ≤ (rs.map Prod.fst).count k)
    (hlast : lastRunPairs k rs = some ps) :
    ∃ M, validate_net (runSources rs) (runTargets rs) wopt false = .ok M ∧
      hmFind? k M = some (dedupP ps) := by
  refine ⟨runFold rs [], validate_net_runs rs wopt false hwf hw, ?_⟩
  rw [hmFind?_runFold, hlast]

/-- C8 witness: `sources = ["a","b","a"]`, `targets = ["x","y","z"]`,
`weights = [1,1,3]`: key `"a"` maps to the deduplicated pairs of its last
run only, `[("z", 3)]` — the earlier pair `("x", 1)` is lost. -/
theorem claim_C8_witness :
    runSources [("a", [("x", 1)]), ("b", [("y", 1)]), ("a", [("z", 3)])] =
      ["a", "b", "a"] ∧
    validate_net ["a", "b", "a"] ["x", "y", "z"] (some [1, 1, 3]) false =
      .ok [("a", [("z", 3)]), ("b", [("y", 1)])] ∧
    hmFind? "a" [("a", [("z", (3 : W))]), ("b", [("y", 1)])] = some [("z", 3)] := by
  obtain ⟨M, hok, hfind⟩ := claim_C8_later_run_overwrites
    [("a", [("x", 1)]), ("b", [("y", 1)]), ("a", [("z", 3)])] (some [1, 1, 3])
    "a" [("z", 3)] (by decide) (Or.inl (by decide)) (by decide) (by decide)
  have h2 : validate_net ["a", "b", "a"] ["x", "y", "z"] (some [1, 1, 3]) false =
      .ok [("a", [("z", 3)]), ("b", [("y", 1)])] := by decide
  have hM : M = [("a", [("z", (3 : W))]), ("b", [("y", 1)])] :=
    Except.ok.inj (hok.symm.trans h2)
  subst hM
  refine ⟨by decide, h2, ?_⟩
  rw [hfind]
  decide

theorem entriesOf_runs_empty_runs (A : List Run) (eps : List (String × W))
    (B : List Run) :
    entriesOf (runSources A ++ eps.map (fun _ => "") ++ runSources B)
      (runTargets A ++ eps.map Prod.fst ++ runTargets B)
      (some (runWeights A ++ eps.map Prod.snd ++ runWeights B)) =
      flattenRuns A ++ runEntries "" eps ++ flattenRuns B := by
  have e1 : (runTargets A).length = (runWeights A).length := by
    rw [runWeights_length, runSources_length]
  have e2 : (runSources A).length = (runTargets A).length := runSources_length A
  have ez : ((runTargets A).zip (runWeights A)).length = (runTargets A).length := by
    rw [List.length_zip, e1, Nat.min_self]
  rw [entriesOf, wlistOf,
    List.zip_append (by simp [e1]),
    List.zip_append e1,
    List.zip_append (by simp [ez, e2]),
    List.zip_append (by rw [ez, e2]),
    zip_run_single, zip_runs_eq, zip_runs_eq]

theorem entriesOf_runs_append_run (rs : List Run) (eps : List (String × W))
    (k0 : String) :
    entriesOf (runSources rs ++ eps.map (fun _ => k0))
      (runTargets rs ++ eps.map Prod.fst)
      (some (runWeights rs ++ eps.map Prod.snd)) =
      flattenRuns rs ++ runEntries k0 eps := by
  rw [entriesOf, wlistOf,
    List.zip_append (by rw [runWeights_length, runSources_length]),
    List.zip_append (by simp [List.length_zip, runSources_length, runWeights_length]),
    zip_run_single, zip_runs_eq]

/-- Processing a well-formed run list followed by a run of empty-string
source keys leaves the machine holding the fully flushed map, the empty
current key, and the deduplicated pairs of the empty-key run. -/
theorem foldl_runs_then_empty_run (A : List Run) (eps : List (String × W))
    (hwfA : wfRuns A = true) (heps : eps ≠ []) :
    List.foldl vnStepP ⟨[], "", []⟩ (flattenRuns A ++ runEntries "" eps) =
      ⟨runFold A [], "", dedupP eps⟩ := by
  cases A with
  | nil =>
      rw [flattenRuns_nil, List.nil_append, foldl_run "" eps ⟨[], "", []⟩ rfl]
      rfl
  | cons ra A' =>
      obtain ⟨ka, psa⟩ := ra
      have hwA := wfRuns_cons hwfA
      rw [List.foldl_append,
        foldl_flattenRuns_emptyCur ka psa A' [] [] hwA.1 hwfA,
        show dedupFrom [] psa = dedupP psa from rfl]
      have hprops := endState_props A' [] ka (dedupP psa) hwA.1
        (dedupP_ne_nil hwA.2.1) (wfRuns_mem hwA.2.2.1)
      cases hSt : endState A' [] ka (dedupP psa) with
      | mk mA kA cA =>
          rw [hSt] at hprops
          obtain ⟨p, eps', rfl⟩ := List.exists_cons_of_ne_nil heps
          have hent : runEntries "" (p :: eps') =
              ("", p.1, p.2) :: runEntries "" eps' := by
            simp [runEntries]
          rw [hent, List.foldl_cons,
            vnStepP_flush mA kA cA "" p.1 p.2 hprops.1 hprops.1 hprops.2.1,
            foldl_run "" eps' ⟨hmInsert kA cA mA, "", [(p.1, p.2)]⟩ rfl,
            hprops.2.2]
          rfl

/-- C9 (amended): a contiguous run of empty-string source keys followed by a
run of a different non-empty key `k1` gets no map entry of its own: the
grouping result is exactly that of the input with the `""` run's pairs
prepended to the following `k1` run.  In particular the merged pairs appear
in the returned map under `k1` provided `k1` does not recur in a later run
(a later `k1` run would overwrite them); and an empty-string run at the end
of the input does produce its own `""` entry. -/
theorem claim_C9_empty_key_runs (A : List Run) (eps ps1 : List (String × W))
    (k1 : String) (rs' : List Run) (heps : eps ≠ [])
    (hwfA : wfRuns A = true)
    (hwf : wfRuns ((k1, ps1) :: rs') = true) :
    (∃ Ma, validate_net
        (runSources A ++ eps.map (fun _ => "") ++ runSources ((k1, ps1) :: rs'))
        (runTargets A ++ eps.map Prod.fst ++ runTargets ((k1, ps1) :: rs'))
        (some (runWeights A ++ eps.map Prod.snd ++ runWeights ((k1, ps1) :: rs')))
        false = .ok Ma ∧
      Ma = runFold (A ++ (k1, eps ++ ps1) :: rs') [] ∧
      hmFind? "" Ma = none ∧
      (k1 ∉ rs'.map Prod.fst → hmFind? k1 Ma = some (dedupP (eps ++ ps1)))) ∧
    (∃ Mb, validate_net (runSources ((k1, ps1) :: rs') ++ eps.map (fun _ => ""))
        (runTargets ((k1, ps1) :: rs') ++ eps.map Prod.fst)
        (some (runWeights ((k1, ps1) :: rs') ++ eps.map Prod.snd)) false = .ok Mb ∧
      hmFind? "" Mb = some (dedupP eps)) := by
  have hw := wfRuns_cons hwf
  have hk1 : k1 ≠ "" := hw.1
  have hps1 : ps1 ≠ [] := hw.2.1
  have hepsps : eps ++ ps1 ≠ [] := fun h => heps (List.append_eq_nil.mp h).1
  constructor
  · -- part (a): the empty-key run merges into the group that follows it
    have hlen : (runSources A ++ eps.map (fun _ => "") ++
          runSources ((k1, ps1) :: rs')).length =
        (runTargets A ++ eps.map Prod.fst ++
          runTargets ((k1, ps1) :: rs')).length := by
      simp [runSources_length]
    have hok := validate_net_ok _ _
      (some (runWeights A ++ eps.map Prod.snd ++ runWeights ((k1, ps1) :: rs')))
      false hlen (by
        intro we hwe
        injection hwe with h3
        rw [← h3]
        simp [runSources_length, runWeights_length])
    rw [entriesOf_runs_empty_runs] at hok
    have hded : dedupFrom (dedupP eps) ps1 = dedupP (eps ++ ps1) := by
      rw [dedupP, dedupP, dedupFrom_append]
    have hfold : List.foldl vnStepP ⟨[], "", []⟩
        (flattenRuns A ++ runEntries "" eps ++ flattenRuns ((k1, ps1) :: rs')) =
        endState rs' (runFold A []) k1 (dedupP (eps ++ ps1)) := by
      rw [List.foldl_append, foldl_runs_then_empty_run A eps hwfA heps,
        foldl_flattenRuns_emptyCur k1 ps1 rs' (runFold A []) (dedupP eps) hk1 hwf,
        hded]
    have hprops := endState_props rs' (runFold A []) k1 (dedupP (eps ++ ps1)) hk1
      (dedupP_ne_nil hepsps) (wfRuns_mem hw.2.2.1)
    have hpure : vnPure (flattenRuns A ++ runEntries "" eps ++
        flattenRuns ((k1, ps1) :: rs')) =
        runFold (A ++ (k1, eps ++ ps1) :: rs') [] := by
      rw [vnPure, hfold]
      simp only [hprops.2.1, ne_eq, not_false_eq_true, if_pos]
      rw [hprops.2.2, runFold_append]
      rfl
    rw [hpure] at hok
    refine ⟨runFold (A ++ (k1, eps ++ ps1) :: rs') [], hok, rfl, ?_, ?_⟩
    · have hkeysne : "" ∉ (A ++ (k1, eps ++ ps1) :: rs').map Prod.fst := by
        intro hmem
        rw [List.map_append, List.mem_append] at hmem
        rcases hmem with h1 | h1
        · obtain ⟨r, hr, hr1⟩ := List.mem_map.mp h1
          exact (wfRuns_mem hwfA r hr).1 hr1
        · rw [List.map_cons, List.mem_cons] at h1
          rcases h1 with h2 | h2
          · exact hk1 h2.symm
          · obtain ⟨r, hr, hr1⟩ := List.mem_map.mp h2
            exact (wfRuns_mem hw.2.2.1 r hr).1 hr1
      have hnone : lastRunPairs "" (A ++ (k1, eps ++ ps1) :: rs') = none :=
        (lastRunPairs_eq_none_iff _ _).mpr hkeysne
      have := hmFind?_runFold "" (A ++ (k1, eps ++ ps1) :: rs') []
      rw [hnone] at this
      exact this
    · intro hnr
      have htail : lastRunPairs k1 rs' = none :=
        (lastRunPairs_eq_none_iff _ _).mpr hnr
      have hhead : lastRunPairs k1 ((k1, eps ++ ps1) :: rs') =
          some (eps ++ ps1) := by
        simp [lastRunPairs, htail]
      have hlast : lastRunPairs k1 (A ++ (k1, eps ++ ps1) :: rs') =
          some (eps ++ ps1) := by
        rw [lastRunPairs_append, hhead]
      have := hmFind?_runFold k1 (A ++ (k1, eps ++ ps1) :: rs') []
      rw [hlast] at this
      exact this
  · -- part (b): a trailing empty-key run gets its own `""` entry
    have hlen : (runSources ((k1, ps1) :: rs') ++ eps.map (fun _ => "")).length =
        (runTargets ((k1, ps1) :: rs') ++ eps.map Prod.fst).length := by
      simp [runSources_length]
    have hok := validate_net_ok _ _
      (some (runWeights ((k1, ps1) :: rs') ++ eps.map Prod.snd))
      false hlen (by
        intro we hwe
        injection hwe with h3
        rw [← h3]
        simp [runSources_length, runWeights_length])
    rw [entriesOf_runs_append_run] at hok
    have hfold := foldl_runs_then_empty_run ((k1, ps1) :: rs') eps hwf heps
    have hpure : vnPure (flattenRuns ((k1, ps1) :: rs') ++ runEntries "" eps) =
        hmInsert "" (dedupP eps) (runFold ((k1, ps1) :: rs') []) := by
      rw [vnPure, hfold]
      simp only [dedupP_ne_nil heps, ne_eq, not_false_eq_true, if_pos]
    rw [hpure] at hok
    refine ⟨_, hok, ?_⟩
    rw [hmFind?_hmInsert]
    simp

/-- C9 counterexample: for `sources = ["","a","b","a"]`,
`targets = ["w","x","y","z"]` the `""` run is followed by the different
non-empty key `"a"`, yet the returned map's group for `"a"` is `{z: 1.0}`:
the merged pair `("w", 1.0)` was overwritten by the later `"a"` run and is
in no group of the returned map, refuting "its pairs are silently merged
into the following source key's group" as a statement about the result. -/
theorem claim_C9_counterexample :
    validate_net ["", "a", "b", "a"] ["w", "x", "y", "z"] none false =
      .ok [("a", [("z", 1)]), ("b", [("y", 1)])] ∧
    hmFind? "a" [("a", [("z", (1 : W))]), ("b", [("y", 1)])] = some [("z", 1)] ∧
    hmFind? "" [("a", [("z", (1 : W))]), ("b", [("y", 1)])] =
      (none : Option (List (String × W))) :=
  ⟨by decide, by decide, by decide⟩

/-- C9 witness: with input `sources = ["b", "", "a"]` (an inner `""` run) the
`""` run gets no entry and its pair merges into the following group `"a"`;
with `sources = ["a", ""]` the trailing `""` run gets its own entry. -/
theorem claim_C9_witness :
    validate_net ["b", "", "a"] ["u", "w0", "x"] (some [4, 7, 1]) false =
      .ok [("b", [("u", 4)]), ("a", [("w0", 7), ("x", 1)])] ∧
    hmFind? "" [("b", [("u", (4 : W))]), ("a", [("w0", 7), ("x", 1)])] =
      (none : Option (List (String × W))) ∧
    hmFind? "a" [("b", [("u", (4 : W))]), ("a", [("w0", 7), ("x", 1)])] =
      some [("w0", 7), ("x", 1)] ∧
    validate_net ["a", ""] ["x", "w0"] (some [1, 7]) false =
      .ok [("a", [("x", 1)]), ("", [("w0", 7)])] ∧
    hmFind? "" [("a", [("x", (1 : W))]), ("", [("w0", 7)])] = some [("w0", 7)] := by
  obtain ⟨⟨Ma, hoka, _, hfae, hfak⟩, ⟨Mb, hokb, hfbe⟩⟩ :=
    claim_C9_empty_key_runs [("b", [("u", 4)])] [("w0", 7)] [("x", 1)] "a" []
      (by decide) (by decide) (by decide)
  have h2a : validate_net ["b", "", "a"] ["u", "w0", "x"] (some [4, 7, 1]) false =
      .ok [("b", [("u", 4)]), ("a", [("w0", 7), ("x", 1)])] := by decide
  have h2b : validate_net ["a", ""] ["x", "w0"] (some [1, 7]) false =
      .ok [("a", [("x", 1)]), ("", [("w0", 7)])] := by decide
  have hMa : Ma = [("b", [("u", (4 : W))]), ("a", [("w0", 7), ("x", 1)])] :=
    Except.ok.inj (hoka.symm.trans h2a)
  have hMb : Mb = [("a", [("x", (1 : W))]), ("", [("w0", 7)])] :=
    Except.ok.inj (hokb.symm.trans h2b)
  subst hMa
  subst hMb
  refine ⟨h2a, hfae, ?_, h2b, ?_⟩
  · rw [hfak (by decide)]
    decide
  · rw [hfbe]
    decide

/-- Turns a failing grouping step into a failing construction, mirroring the
`.unwrap()` panic in `new_from_vec`. -/
theorem new_from_vec_error {sources targets : List String} {wopt : Option (List W)}
    (features : List String) (tmin : Nat) {e : VErr}
    (h : validate_net sources targets wopt false = .error e) :
    new_from_vec sources targets wopt features tmin = none := by
  rw [new_from_vec, h]

/-- C2: whenever `new_from_vec` returns a network, the three control arrays
have equal length, the two flattened arrays both have length `sum offsets`,
every group slice `[starts i, starts i + offsets i)` is in bounds of the
flattened arrays, and slices of distinct groups are pairwise disjoint
(the earlier slice ends no later than the later one starts). -/
theorem claim_C2_flattened_invariants (sources targets : List String)
    (wopt : Option (List W)) (features : List String) (tmin : Nat)
    (net : PathwayNetwork)
    (h : new_from_vec sources targets wopt features tmin = some net) :
    (net.names.length = net.starts.length ∧ net.starts.length = net.offsets.length) ∧
    (net.cnct.length = net.weights.length ∧ net.cnct.length = net.offsets.sum) ∧
    (∀ i, i < net.offsets.length →
      net.starts.getD i 0 + net.offsets.getD i 0 ≤ net.cnct.length) ∧
    (∀ i j, i < j → j < net.offsets.length →
      net.starts.getD i 0 + net.offsets.getD i 0 ≤ net.starts.getD j 0) := by
  cases hv : validate_net sources targets wopt false with
  | error e =>
      rw [new_from_vec_error features tmin hv] at h
      exact Option.noConfusion h
  | ok M =>
      rw [new_from_vec_eq features tmin hv] at h
      have hwf : WfNet net :=
        flattenLoop_wfNet (name_to_id features)
          (M.filter (fun kv => tmin ≤ kv.2.length)) [] [] [] [] [] net
          rfl rfl rfl rfl (by intro j hj; simp at hj) h
      obtain ⟨w1, w2, w3, w4, w5⟩ := hwf
      have hb := wfNet_bounds ⟨w1, w2, w3, w4, w5⟩
      exact ⟨⟨w1, w2⟩, ⟨by rw [w3, w4], w3⟩, hb.1, hb.2⟩

/-- C2 witness: the Scenario A network, with the slice bounds and the
disjointness of the two group slices instantiated at concrete indices. -/
theorem claim_C2_witness :
    (netA.names.length = netA.starts.length ∧
      netA.starts.length = netA.offsets.length) ∧
    (netA.cnct.length = netA.weights.length ∧
      netA.cnct.length = netA.offsets.sum) ∧
    netA.starts.getD 1 0 + netA.offsets.getD 1 0 ≤ netA.cnct.length ∧
    netA.starts.getD 0 0 + netA.offsets.getD 0 0 ≤ netA.starts.getD 1 0 :=
  have h := claim_C2_flattened_invariants ["a", "a", "b"] ["x", "y", "x"] none
    ["x", "y"] 1 netA (by decide)
  ⟨h.1, h.2.1, h.2.2.1 1 (by decide), h.2.2.2 0 1 (by decide) (by decide)⟩

/-- C3 (amended): provided the grouping step succeeds, an unresolvable target
name in any retained group makes `new_from_vec` fail as a whole (no partial
network), and if every retained target name resolves in the vocabulary,
construction completes. -/
theorem claim_C3_unresolved_target (sources targets : List String)
    (wopt : Option (List W)) (features : List String) (tmin : Nat) (M : GMap)
    (h : validate_net sources targets wopt false = .ok M) :
    ((∃ kv ∈ M.filter (fun kv => tmin ≤ kv.2.length), ∃ p ∈ kv.2,
        hmFind? p.1 (name_to_id features) = none) →
      new_from_vec sources targets wopt features tmin = none) ∧
    ((∀ kv ∈ M.filter (fun kv => tmin ≤ kv.2.length), ∀ p ∈ kv.2,
        (hmFind? p.1 (name_to_id features)).isSome) →
      ∃ net, new_from_vec sources targets wopt features tmin = some net) := by
  constructor
  · intro hex
    rw [new_from_vec_eq features tmin h,
      ← Option.not_isSome_iff_eq_none, flattenLoop_isSome_iff]
    intro hall
    obtain ⟨kv, hkv, p, hp, hnone⟩ := hex
    have := hall kv hkv p hp
    rw [hnone] at this
    exact absurd this (by simp)
  · intro hall
    rw [new_from_vec_eq features tmin h]
    have : (flattenLoop (name_to_id features)
        (M.filter (fun kv => tmin ≤ kv.2.length)) [] [] [] [] [] 0).isSome := by
      rw [flattenLoop_isSome_iff]
      exact hall
    exact Option.isSome_iff_exists.mp this

/-- C3 counterexample: with `sources = ["a"]`, `targets = []` the set of
retained groups is empty — so trivially every retained target name is present
in the vocabulary — yet construction does not complete (the grouping
`.unwrap()` panics), refuting the claim's unconditional completion half. -/
theorem claim_C3_counterexample :
    retainedOf ["a"] [] none 1 = [] ∧
    new_from_vec ["a"] [] none ["x"] 1 = none :=
  ⟨by decide, by decide⟩

/-- C3 witness: Scenario D — vocabulary `["x"]` missing `"y"` while group
`"a"` contains target `"y"` — construction fails with no partial network. -/
theorem claim_C3_witness :
    new_from_vec ["a", "a"] ["x", "y"] none ["x"] 1 = none :=
  (claim_C3_unresolved_target ["a", "a"] ["x", "y"] none ["x"] 1
    [("a", [("x", 1), ("y", 1)])] (by decide)).1 (by decide)

/-- C5: a group key appears in the names of the network returned by
`new_from_vec` exactly when its deduplicated member list in the grouped map
has at least `tmin` entries. -/
theorem claim_C5_min_size_filter (sources targets : List String)
    (wopt : Option (List W)) (features : List String) (tmin : Nat) (M : GMap)
    (net : PathwayNetwork)
    (h1 : validate_net sources targets wopt false = .ok M)
    (h2 : new_from_vec sources targets wopt features tmin = some net) :
    ∀ k, k ∈ net.names ↔ ∃ ps, hmFind? k M = some ps ∧ tmin ≤ ps.length := by
  rw [new_from_vec_eq features tmin h1] at h2
  have hnames := flattenLoop_names _ _ _ _ _ _ _ _ _ h2
  have hnd := validate_net_keysNodup h1
  intro k
  rw [hnames]
  simp only [List.nil_append, List.mem_map]
  constructor
  · rintro ⟨⟨k', ps⟩, hmem, rfl⟩
    rw [List.mem_filter] at hmem
    exact ⟨ps, hmFind?_eq_some_of_mem hnd hmem.1, by simpa using hmem.2⟩
  · rintro ⟨ps, hf, hlen⟩
    exact ⟨(k, ps), List.mem_filter.mpr ⟨mem_of_hmFind?_eq_some hf, by simpa⟩, rfl⟩

/-- C5 witness: Scenario C — the Scenario A input with `tmin = 2` retains
only group `"a"`; group `"b"` is absent and `get_num_pathways` is `1`. -/
theorem claim_C5_witness :
    "a" ∈ netC.names ∧ "b" ∉ netC.names ∧ netC.get_num_pathways = 1 := by
  have h := claim_C5_min_size_filter ["a", "a", "b"] ["x", "y", "x"] none
    ["x", "y"] 2 mapA netC (by decide) (by decide)
  refine ⟨(h "a").mpr ⟨[("x", 1), ("y", 1)], by decide, by decide⟩, ?_, by decide⟩
  intro hb
  obtain ⟨ps, hf, hl⟩ := (h "b").mp hb
  have hfind : hmFind? "b" mapA = some [("x", (1 : W))] := by decide
  rw [hfind] at hf
  injection hf with h3
  rw [← h3] at hl
  exact absurd hl (by decide)

/-- C7: on a network satisfying the parallel-array invariants, for
`i < get_num_pathways` the accessors return the name, the `cnct` slice
`[starts i, starts i + offsets i)` and that slice paired with the
identically-positioned weights slice; for `i ≥ get_num_pathways` every
accessor fails out of bounds. -/
theorem claim_C7_accessors (n : PathwayNetwork) (i : Nat)
    (h1 : n.names.length = n.starts.length)
    (h2 : n.starts.length = n.offsets.length)
    (h3 : n.weights.length = n.cnct.length)
    (h4 : ∀ j, j < n.offsets.length →
      n.starts.getD j 0 + n.offsets.getD j 0 ≤ n.cnct.length) :
    (i < n.get_num_pathways →
      n.get_pathway_name i = n.names.get? i ∧ (n.names.get? i).isSome ∧
      n.get_pathway_features i =
        some ((n.cnct.drop (n.starts.getD i 0)).take (n.offsets.getD i 0)) ∧
      n.get_pathway_features_and_weights i =
        some ((n.cnct.drop (n.starts.getD i 0)).take (n.offsets.getD i 0),
          (n.weights.drop (n.starts.getD i 0)).take (n.offsets.getD i 0))) ∧
    (n.get_num_pathways ≤ i →
      n.get_pathway_name i = none ∧ n.get_pathway_features i = none ∧
      n.get_pathway_features_and_weights i = none) := by
  rw [PathwayNetwork.get_num_pathways]
  constructor
  · intro hi
    have his : i < n.starts.length := by omega
    have hio : i < n.offsets.length := by omega
    have hs : n.starts.get? i = some (n.starts.getD i 0) := by
      rw [List.get?_eq_getElem?, List.getElem?_eq_getElem his,
        List.getD_eq_getElem n.starts 0 his]
    have ho : n.offsets.get? i = some (n.offsets.getD i 0) := by
      rw [List.get?_eq_getElem?, List.getElem?_eq_getElem hio,
        List.getD_eq_getElem n.offsets 0 hio]
    have hb := h4 i hio
    refine ⟨rfl, ?_, ?_, ?_⟩
    · rw [List.get?_eq_getElem?, List.getElem?_eq_getElem hi]
      rfl
    · rw [PathwayNetwork.get_pathway_features, hs, ho]
      simp only [if_pos hb]
    · have hb2 : n.starts.getD i 0 + n.offsets.getD i 0 ≤ n.weights.length := by
        rw [h3]; exact hb
      rw [PathwayNetwork.get_pathway_features_and_weights, hs, ho]
      simp only [if_pos (And.intro hb hb2)]
  · intro hi
    have his : n.starts.length ≤ i := by omega
    refine ⟨?_, ?_, ?_⟩
    · rw [PathwayNetwork.get_pathway_name, List.get?_eq_getElem?,
        List.getElem?_eq_none hi]
    · rw [PathwayNetwork.get_pathway_features, List.get?_eq_getElem?,
        List.getElem?_eq_none his]
    · rw [PathwayNetwork.get_pathway_features_and_weights, List.get?_eq_getElem?,
        List.getElem?_eq_none his]

/-- C7 witness: the Scenario A network — group 0 is `"a"` with members
`[0, 1]` and weights `[1, 1]`; index 5 is out of bounds for every accessor. -/
theorem claim_C7_witness :
    (netA.get_pathway_name 0 = netA.names.get? 0 ∧ (netA.names.get? 0).isSome ∧
      netA.get_pathway_features 0 =
        some ((netA.cnct.drop (netA.starts.getD 0 0)).take (netA.offsets.getD 0 0)) ∧
      netA.get_pathway_features_and_weights 0 =
        some ((netA.cnct.drop (netA.starts.getD 0 0)).take (netA.offsets.getD 0 0),
          (netA.weights.drop (netA.starts.getD 0 0)).take (netA.offsets.getD 0 0))) ∧
    (netA.get_pathway_name 5 = none ∧ netA.get_pathway_features 5 = none ∧
      netA.get_pathway_features_and_weights 5 = none) :=
  ⟨(claim_C7_accessors netA 0 (by decide) (by decide) (by decide) (by decide)).1
      (by decide),
   (claim_C7_accessors netA 5 (by decide) (by decide) (by decide) (by decide)).2
      (by decide)⟩
